import Mathlib

/-!
Verification of the `brownstone` fixed-size array building library.

The development shallowly embeds the three source modules:
* `builder.rs`   — the low-level `ArrayBuilder`, a thin wrapper over the
  external `arrayvec::ArrayVec` dependency (modelled here from that crate's
  documented contract, since its source is not part of this repository);
* `move_builder.rs` — the move-based "typestate" `ArrayBuilder`;
* `lib.rs`       — the generic construction algorithms.

Arrays `[T; N]` are modelled as `List T` values whose length is proved to be
`N` where relevant.  Rust panics are modelled by `Option`/`none` results.
A mutable slice argument `&mut [T]` handed to a producer is modelled by
letting the producer return the (same-length) new contents of the slice.
-/

namespace Brownstone

namespace builder

/-- Model of the external `arrayvec::ArrayVec<T, N>` dependency (not part of
this repository): a vector of at most `N` elements, modelled as the list of
its initialized elements.  Operations follow the `arrayvec` documented
contract. -/
structure ArrayVec (T : Type) (N : Nat) where
  data : List T
deriving DecidableEq

/-- `ArrayVec::new` / `new_const`: the empty vector. -/
def ArrayVec.new (T : Type) (N : Nat) : ArrayVec T N := ⟨[]⟩

/-- `ArrayVec::len`: number of initialized elements. -/
def ArrayVec.len (a : ArrayVec T N) : Nat := a.data.length

/-- `ArrayVec::is_full`: the vector is full when its length equals the
capacity. -/
def ArrayVec.full (a : ArrayVec T N) : Bool := a.len = N

/-- `ArrayVec::is_empty`. -/
def ArrayVec.empty (a : ArrayVec T N) : Bool := a.len = 0

/-- `ArrayVec::push_unchecked`: append without a capacity check.  In Rust
this is undefined behavior when the vector is already full; the model simply
appends, and the reachability theorem for the typestate builder shows the
precondition `len < N` always holds at its one call site. -/
def ArrayVec.push_unchecked (a : ArrayVec T N) (value : T) : ArrayVec T N :=
  ⟨a.data ++ [value]⟩

/-- `ArrayVec::try_push`: error (carrying back the element, via
`CapacityError::element`) iff the vector is already full; otherwise append.
The state is returned alongside, modelling `&mut self`. -/
def ArrayVec.try_push (a : ArrayVec T N) (value : T) :
    ArrayVec T N × Except T Unit :=
  if a.len < N then (⟨a.data ++ [value]⟩, Except.ok ()) else (a, Except.error value)

/-- `ArrayVec::into_inner`: return the full array if `len == N`, otherwise
give the vector back unchanged. -/
def ArrayVec.into_inner (a : ArrayVec T N) : Except (ArrayVec T N) (List T) :=
  if a.len = N then Except.ok a.data else Except.error a

/-- `ArrayVec::into_inner_unchecked`: return the underlying array without the
fullness check (precondition `len == N`). -/
def ArrayVec.into_inner_unchecked (a : ArrayVec T N) : List T := a.data

/-- `ArrayVec::as_slice`: the initialized elements. -/
def ArrayVec.as_slice (a : ArrayVec T N) : List T := a.data

/-- `builder::Overflow<T>` (src/builder.rs): the value that could not be
pushed because the builder was already full. -/
structure Overflow (T : Type) where
  value : T
deriving DecidableEq

/-- `builder::PushResult` (src/builder.rs): whether the array is full after a
push. -/
inductive PushResult where
  | NotFull
  | Full
deriving DecidableEq

/-- `builder::ArrayBuilder<T, N>` (src/builder.rs): low-level builder holding
an `ArrayVec`. -/
structure ArrayBuilder (T : Type) (N : Nat) where
  vec : ArrayVec T N
deriving DecidableEq

/-- `ArrayBuilder::new`. -/
def ArrayBuilder.new (T : Type) (N : Nat) : ArrayBuilder T N :=
  ⟨ArrayVec.new T N⟩

/-- `ArrayBuilder::is_full`. -/
def ArrayBuilder.full (b : ArrayBuilder T N) : Bool := b.vec.full

/-- `ArrayBuilder::is_empty`. -/
def ArrayBuilder.empty (b : ArrayBuilder T N) : Bool := b.vec.empty

/-- `ArrayBuilder::len`. -/
def ArrayBuilder.len (b : ArrayBuilder T N) : Nat := b.vec.len

/-- `ArrayBuilder::push_result` (src/builder.rs line 84): `Full` iff
`len() >= N` after a push. -/
def ArrayBuilder.push_result (b : ArrayBuilder T N) : PushResult :=
  if b.len ≥ N then PushResult.Full else PushResult.NotFull

/-- `ArrayBuilder::push_unchecked` (src/builder.rs line 98): append without a
check and report the resulting `PushResult`.  Precondition (from the safety
comment): the builder is not full. -/
def ArrayBuilder.push_unchecked (b : ArrayBuilder T N) (value : T) :
    ArrayBuilder T N × PushResult :=
  let b2 : ArrayBuilder T N := ⟨b.vec.push_unchecked value⟩
  (b2, b2.push_result)

/-- The safety precondition of `ArrayBuilder::push_unchecked`: the builder
must not be full. -/
def ArrayBuilder.push_unchecked_pre (b : ArrayBuilder T N) : Prop :=
  b.len < N

/-- `ArrayBuilder::try_push` (src/builder.rs line 112): delegate to
`ArrayVec::try_push`, mapping success to `push_result()` and failure to
`Overflow`. -/
def ArrayBuilder.try_push (b : ArrayBuilder T N) (value : T) :
    ArrayBuilder T N × Except (Overflow T) PushResult :=
  match b.vec.try_push value with
  | (vec2, Except.ok ()) =>
      let b2 : ArrayBuilder T N := ⟨vec2⟩
      (b2, Except.ok b2.push_result)
  | (vec2, Except.error v) => (⟨vec2⟩, Except.error ⟨v⟩)

/-- `ArrayBuilder::push` (src/builder.rs line 129): panicking form of
`try_push`; the panic is modelled as `none`. -/
def ArrayBuilder.push (b : ArrayBuilder T N) (value : T) :
    Option (ArrayBuilder T N × PushResult) :=
  match b.try_push value with
  | (b2, Except.ok r) => some (b2, r)
  | (_, Except.error _) => none

/-- `ArrayBuilder::finish_unchecked` (src/builder.rs line 143): return the
array without the fullness check (precondition `len == N`). -/
def ArrayBuilder.finish_unchecked (b : ArrayBuilder T N) : List T :=
  b.vec.into_inner_unchecked

/-- `ArrayBuilder::try_finish` (src/builder.rs line 153): delegate to
`ArrayVec::into_inner`, rewrapping the builder on failure. -/
def ArrayBuilder.try_finish (b : ArrayBuilder T N) :
    Except (ArrayBuilder T N) (List T) :=
  match b.vec.into_inner with
  | Except.ok array => Except.ok array
  | Except.error vec => Except.error ⟨vec⟩

/-- `ArrayBuilder::finished_slice` (src/builder.rs line 176). -/
def ArrayBuilder.finished_slice (b : ArrayBuilder T N) : List T :=
  b.vec.as_slice

/-- The `Extend` implementation for `ArrayBuilder` (src/builder.rs line 204):
push every item of the iterator with the panicking `push`; a panic (`none`)
aborts the whole operation. -/
def ArrayBuilder.extend (b : ArrayBuilder T N) : List T → Option (ArrayBuilder T N)
  | [] => some b
  | item :: rest =>
    match b.push item with
    | some (b2, _) => b2.extend rest
    | none => none

end builder

namespace move_builder

/-- `move_builder::ArrayBuilder<T, N>` (src/move_builder.rs line 62): the
typestate builder, wrapping the low-level builder.  The invariant stated in
the source as a comment ("while this instance exists, the builder is not
full") is not baked into the structure; it is proved for all reachable
values in the reachability theorem. -/
structure ArrayBuilder (T : Type) (N : Nat) where
  builder : builder.ArrayBuilder T N
deriving DecidableEq

/-- `move_builder::PushResult<T, N>` (src/move_builder.rs line 13): a push
either completes the array (returned directly) or yields the updated
builder. -/
inductive PushResult (T : Type) (N : Nat) where
  | Full (array : List T)
  | NotFull (b : ArrayBuilder T N)
deriving DecidableEq

/-- `move_builder::ArrayBuilder::start` (src/move_builder.rs line 73): if a
fresh low-level builder is already finishable (`N == 0`), return the empty
array; otherwise return the builder. -/
def ArrayBuilder.start (T : Type) (N : Nat) : PushResult T N :=
  match (builder.ArrayBuilder.new T N).try_finish with
  | Except.ok array => PushResult.Full array
  | Except.error b => PushResult.NotFull ⟨b⟩

/-- `move_builder::ArrayBuilder::is_empty` (src/move_builder.rs line 85). -/
def ArrayBuilder.empty (b : ArrayBuilder T N) : Bool := b.builder.empty

/-- `move_builder::ArrayBuilder::len` (src/move_builder.rs line 94). -/
def ArrayBuilder.len (b : ArrayBuilder T N) : Nat := b.builder.len

/-- `move_builder::ArrayBuilder::push` (src/move_builder.rs line 104):
consume the builder, push with the unchecked primitive, and return either
the finished array (taken out with `finish_unchecked`) or the new builder. -/
def ArrayBuilder.push (self : ArrayBuilder T N) (value : T) : PushResult T N :=
  match self.builder.push_unchecked value with
  | (b2, builder.PushResult.NotFull) => PushResult.NotFull ⟨b2⟩
  | (b2, builder.PushResult.Full) => PushResult.Full b2.finish_unchecked

/-- `move_builder::ArrayBuilder::finished_slice` (src/move_builder.rs line
128). -/
def ArrayBuilder.finished_slice (b : ArrayBuilder T N) : List T :=
  b.builder.finished_slice

/-- Writing through the mutable slice returned by
`move_builder::ArrayBuilder::finished_slice_mut` (src/move_builder.rs line
136): the builder whose initialized elements have been replaced by `l`.
Rust's `&mut [T]` can change the elements but never the length. -/
def ArrayBuilder.write_slice (_b : ArrayBuilder T N) (l : List T) :
    ArrayBuilder T N :=
  ⟨⟨⟨l⟩⟩⟩

end move_builder

/-- `TryBuildError<E>` (src/lib.rs line 27): the producer's error together
with the index at which it occurred. -/
structure TryBuildError (E : Type) where
  error : E
  index : Nat
deriving DecidableEq

/-- Model of a Rust `FnMut(&mut [T]) -> Result<T, E>` producer: a stateful
function that receives the initialized slice and returns the new state, the
(possibly mutated) contents of the slice, and its result.  `len_eq` is the
guarantee, enforced in Rust by the type `&mut [T]`, that writing through the
slice cannot change its length. -/
structure SliceFn (σ T E : Type) where
  f : σ → List T → σ × List T × Except E T
  len_eq : ∀ s l, ((f s l).2.1).length = l.length

/-- Model of an infallible `FnMut(&mut [T]) -> T` producer. -/
structure SliceFnI (σ T : Type) where
  f : σ → List T → σ × List T × T
  len_eq : ∀ s l, ((f s l).2.1).length = l.length

/-- The loop of `try_build_with` (src/lib.rs lines 66-77): call the producer
on the initialized slice (whose contents it may rewrite), fail with the
current index on an error, and otherwise push, finishing when the push
completes the array. -/
def try_build_loop (P : SliceFn σ T E) (s : σ) (b : move_builder.ArrayBuilder T N) :
    Except (TryBuildError E) (List T) :=
  match h : P.f s b.finished_slice with
  | (s2, slice2, Except.error e) => Except.error ⟨e, slice2.length⟩
  | (s2, slice2, Except.ok value) =>
    match h2 : (b.write_slice slice2).push value with
    | move_builder.PushResult.Full array => Except.ok array
    | move_builder.PushResult.NotFull b2 => try_build_loop P s2 b2
termination_by N - b.len
decreasing_by
  have hpush : (b.write_slice slice2).push value =
      (if slice2.length + 1 ≥ N
       then move_builder.PushResult.Full (slice2 ++ [value])
       else move_builder.PushResult.NotFull ⟨⟨⟨slice2 ++ [value]⟩⟩⟩) := by
    by_cases hN : slice2.length + 1 ≥ N
    · simp [move_builder.ArrayBuilder.push, move_builder.ArrayBuilder.write_slice,
        builder.ArrayBuilder.push_unchecked, builder.ArrayBuilder.push_result,
        builder.ArrayVec.push_unchecked, builder.ArrayBuilder.len, builder.ArrayVec.len,
        builder.ArrayBuilder.finish_unchecked, builder.ArrayVec.into_inner_unchecked, hN]
    · simp [move_builder.ArrayBuilder.push, move_builder.ArrayBuilder.write_slice,
        builder.ArrayBuilder.push_unchecked, builder.ArrayBuilder.push_result,
        builder.ArrayVec.push_unchecked, builder.ArrayBuilder.len, builder.ArrayVec.len, hN]
  rw [hpush] at h2
  by_cases hN : slice2.length + 1 ≥ N
  · rw [if_pos hN] at h2
    exact absurd h2 (by simp)
  · rw [if_neg hN] at h2
    cases h2
    have hlen := P.len_eq s b.finished_slice
    rw [h] at hlen
    simp only [move_builder.ArrayBuilder.len, builder.ArrayBuilder.len,
      builder.ArrayVec.len, move_builder.ArrayBuilder.finished_slice,
      builder.ArrayBuilder.finished_slice, builder.ArrayVec.as_slice,
      List.length_append, List.length_singleton] at hlen ⊢
    omega

/-- `try_build_with` (src/lib.rs line 58): start a typestate builder and run
the loop. -/
def try_build_with (P : SliceFn σ T E) (s : σ) (N : Nat) :
    Except (TryBuildError E) (List T) :=
  match move_builder.ArrayBuilder.start T N with
  | move_builder.PushResult.Full array => Except.ok array
  | move_builder.PushResult.NotFull b => try_build_loop P s b

/-- One observed producer invocation: the slice contents the producer was
given, and the result it returned. -/
structure Call (T E : Type) where
  slice : List T
  out : Except E T

/-- Instrumented form of `try_build_loop` that additionally records, in
order, every invocation of the producer.  The first component is proved
equal to `try_build_loop` (the trace is write-only). -/
def try_build_loop_t (P : SliceFn σ T E) (s : σ) (b : move_builder.ArrayBuilder T N) :
    Except (TryBuildError E) (List T) × List (Call T E) :=
  match h : P.f s b.finished_slice with
  | (s2, slice2, Except.error e) =>
    (Except.error ⟨e, slice2.length⟩, [⟨b.finished_slice, Except.error e⟩])
  | (s2, slice2, Except.ok value) =>
    match h2 : (b.write_slice slice2).push value with
    | move_builder.PushResult.Full array =>
      (Except.ok array, [⟨b.finished_slice, Except.ok value⟩])
    | move_builder.PushResult.NotFull b2 =>
      let rest := try_build_loop_t P s2 b2
      (rest.1, ⟨b.finished_slice, Except.ok value⟩ :: rest.2)
termination_by N - b.len
decreasing_by
  have hpush : (b.write_slice slice2).push value =
      (if slice2.length + 1 ≥ N
       then move_builder.PushResult.Full (slice2 ++ [value])
       else move_builder.PushResult.NotFull ⟨⟨⟨slice2 ++ [value]⟩⟩⟩) := by
    by_cases hN : slice2.length + 1 ≥ N
    · simp [move_builder.ArrayBuilder.push, move_builder.ArrayBuilder.write_slice,
        builder.ArrayBuilder.push_unchecked, builder.ArrayBuilder.push_result,
        builder.ArrayVec.push_unchecked, builder.ArrayBuilder.len, builder.ArrayVec.len,
        builder.ArrayBuilder.finish_unchecked, builder.ArrayVec.into_inner_unchecked, hN]
    · simp [move_builder.ArrayBuilder.push, move_builder.ArrayBuilder.write_slice,
        builder.ArrayBuilder.push_unchecked, builder.ArrayBuilder.push_result,
        builder.ArrayVec.push_unchecked, builder.ArrayBuilder.len, builder.ArrayVec.len, hN]
  rw [hpush] at h2
  by_cases hN : slice2.length + 1 ≥ N
  · rw [if_pos hN] at h2
    exact absurd h2 (by simp)
  · rw [if_neg hN] at h2
    cases h2
    have hlen := P.len_eq s b.finished_slice
    rw [h] at hlen
    simp only [move_builder.ArrayBuilder.len, builder.ArrayBuilder.len,
      builder.ArrayVec.len, move_builder.ArrayBuilder.finished_slice,
      builder.ArrayBuilder.finished_slice, builder.ArrayVec.as_slice,
      List.length_append, List.length_singleton] at hlen ⊢
    omega

/-- Instrumented form of `try_build_with`: result plus the trace of producer
invocations. -/
def try_build_with_t (P : SliceFn σ T E) (s : σ) (N : Nat) :
    Except (TryBuildError E) (List T) × List (Call T E) :=
  match move_builder.ArrayBuilder.start T N with
  | move_builder.PushResult.Full array => (Except.ok array, [])
  | move_builder.PushResult.NotFull b => try_build_loop_t P s b

/-- `infallible` (src/lib.rs line 46): wrap a value in an `Ok` whose error
type is uninhabited (`core::convert::Infallible`, Lean's `Empty`). -/
def infallible (value : T) : Except Empty T := Except.ok value

/-- The producer `move |slice| infallible(next_value(slice))` used by
`build_with` (src/lib.rs line 106). -/
def SliceFnI.ok_wrap (Q : SliceFnI σ T) : SliceFn σ T Empty where
  f := fun s l => ((Q.f s l).1, (Q.f s l).2.1, infallible (Q.f s l).2.2)
  len_eq := fun s l => Q.len_eq s l

/-- `build_with` (src/lib.rs line 102): run `try_build_with` with the
`Ok`-wrapped producer; an `Err` is impossible since its payload would be an
inhabitant of `Empty` (`match inf.error {}` in the source). -/
def build_with (Q : SliceFnI σ T) (s : σ) (N : Nat) : List T :=
  match try_build_with Q.ok_wrap s N with
  | Except.ok array => array
  | Except.error inf => inf.error.elim

/-- The producer `move |slice| next_value(slice.len())` used by
`build_indexed` (src/lib.rs line 152), for a stateful `FnMut(usize) -> T`. -/
def of_indexed (g : σ → Nat → σ × T) : SliceFnI σ T where
  f := fun s l => ((g s l.length).1, l, (g s l.length).2)
  len_eq := fun _ _ => rfl

/-- `build_indexed` (src/lib.rs line 148). -/
def build_indexed (g : σ → Nat → σ × T) (s : σ) (N : Nat) : List T :=
  build_with (of_indexed g) s N

/-- The producer `move |_slice| next_value()` used by `try_build`
(src/lib.rs line 164), for a stateful fallible `FnMut() -> Result<T, E>`. -/
def of_thunk (g : σ → σ × Except E T) : SliceFn σ T E where
  f := fun s l => ((g s).1, l, (g s).2)
  len_eq := fun _ _ => rfl

/-- `try_build` (src/lib.rs line 160). -/
def try_build (g : σ → σ × Except E T) (s : σ) (N : Nat) :
    Except (TryBuildError E) (List T) :=
  try_build_with (of_thunk g) s N

/-- The producer `move |_slice| next_value()` used by `build`
(src/lib.rs line 184), for a stateful infallible `FnMut() -> T`. -/
def of_const (g : σ → σ × T) : SliceFnI σ T where
  f := fun s l => ((g s).1, l, (g s).2)
  len_eq := fun _ _ => rfl

/-- `build` (src/lib.rs line 180). -/
def build (g : σ → σ × T) (s : σ) (N : Nat) : List T :=
  build_with (of_const g) s N

/-- Model of a Rust `Iterator`: a stateful `next`, plus `size_hint` giving a
lower bound and an optional upper bound on the remaining length. -/
structure Iter (T σ : Type) where
  next : σ → Option (T × σ)
  size_hint : σ → Nat × Option Nat

/-- The first `n` items an iterator yields from state `s` (fewer if it is
exhausted earlier). -/
def Iter.take (it : Iter T σ) : σ → Nat → List T
  | _, 0 => []
  | s, n + 1 =>
    match it.next s with
    | none => []
    | some (v, s2) => v :: it.take s2 n

/-- The producer `move || iterator.next().ok_or(())` used by
`try_build_iter` (src/lib.rs line 219). -/
def iter_next (it : Iter T σ) : σ → σ × Except Unit T := fun s =>
  match it.next s with
  | some (v, s2) => (s2, Except.ok v)
  | none => (s, Except.error ())

/-- `try_build_iter` (src/lib.rs line 207): if the size hint's upper bound
shows the iterator cannot yield `N` items, return `none` without touching
the iterator; otherwise run `try_build` on `next`, turning an error into
`none`. -/
def try_build_iter (it : Iter T σ) (s : σ) (N : Nat) : Option (List T) :=
  match (it.size_hint s).2 with
  | some max => if max < N then none else (try_build (iter_next it) s N).toOption
  | none => (try_build (iter_next it) s N).toOption

/-- `build_iter` (src/lib.rs line 238): `try_build_iter`, panicking (`none`)
when the iterator is too short. -/
def build_iter (it : Iter T σ) (s : σ) (N : Nat) : Option (List T) :=
  try_build_iter it s N

/-- The loop of `build_cloned` (src/lib.rs lines 265-271): push the current
item; once the push returns the still-incomplete builder, clone its first
initialized element (`finished_slice()[0]`, modelled by `headI` — the slice
is never empty right after a push) as the next item.  `Clone::clone` is
modelled by the function `c`. -/
def build_cloned_loop [Inhabited T] (c : T → T)
    (b : move_builder.ArrayBuilder T N) (item : T) : List T :=
  match h2 : b.push item with
  | move_builder.PushResult.Full array => array
  | move_builder.PushResult.NotFull b2 =>
    build_cloned_loop c b2 (c b2.finished_slice.headI)
termination_by N - b.len
decreasing_by
  have hpush : b.push item =
      (if b.len + 1 ≥ N
       then move_builder.PushResult.Full (b.builder.vec.data ++ [item])
       else move_builder.PushResult.NotFull ⟨⟨⟨b.builder.vec.data ++ [item]⟩⟩⟩) := by
    by_cases hN : b.len + 1 ≥ N
    · have hN2 : N ≤ b.builder.vec.data.length + 1 := by
        simpa [move_builder.ArrayBuilder.len, builder.ArrayBuilder.len,
          builder.ArrayVec.len] using hN
      simp [move_builder.ArrayBuilder.push, move_builder.ArrayBuilder.len,
        builder.ArrayBuilder.push_unchecked, builder.ArrayBuilder.push_result,
        builder.ArrayVec.push_unchecked, builder.ArrayBuilder.len, builder.ArrayVec.len,
        builder.ArrayBuilder.finish_unchecked, builder.ArrayVec.into_inner_unchecked, hN2]
    · have hN2 : ¬ N ≤ b.builder.vec.data.length + 1 := by
        simpa [move_builder.ArrayBuilder.len, builder.ArrayBuilder.len,
          builder.ArrayVec.len] using hN
      simp [move_builder.ArrayBuilder.push, move_builder.ArrayBuilder.len,
        builder.ArrayBuilder.push_unchecked, builder.ArrayBuilder.push_result,
        builder.ArrayVec.push_unchecked, builder.ArrayBuilder.len, builder.ArrayVec.len, hN2]
  rw [hpush] at h2
  by_cases hN : b.len + 1 ≥ N
  · rw [if_pos hN] at h2
    exact absurd h2 (by simp)
  · rw [if_neg hN] at h2
    cases h2
    simp only [move_builder.ArrayBuilder.len, builder.ArrayBuilder.len,
      builder.ArrayVec.len, List.length_append, List.length_singleton] at hN ⊢
    omega

/-- `build_cloned` (src/lib.rs line 262). -/
def build_cloned [Inhabited T] (c : T → T) (item : T) (N : Nat) : List T :=
  match move_builder.ArrayBuilder.start T N with
  | move_builder.PushResult.Full array => array
  | move_builder.PushResult.NotFull b => build_cloned_loop c b item

/-- The sequence of results observed when feeding the values `vs`, one push
at a time, to a typestate builder.  A `Full` result consumes the builder, so
the sequence stops there even if values remain. -/
def push_events (b : move_builder.ArrayBuilder T N) :
    List T → List (move_builder.PushResult T N)
  | [] => []
  | v :: vs =>
    match b.push v with
    | move_builder.PushResult.Full array => [move_builder.PushResult.Full array]
    | move_builder.PushResult.NotFull b2 =>
      move_builder.PushResult.NotFull b2 :: push_events b2 vs

/-- The typestate builders obtainable through the `move_builder` API: from
`start`, from a `push` that did not complete the array, or by overwriting
the initialized elements through `finished_slice_mut` (which cannot change
their number). -/
inductive Reachable : {T : Type} → {N : Nat} → move_builder.ArrayBuilder T N → Prop where
  | start {T : Type} {N : Nat} (b : move_builder.ArrayBuilder T N) :
      move_builder.ArrayBuilder.start T N = move_builder.PushResult.NotFull b →
      Reachable b
  | push {T : Type} {N : Nat} (b b2 : move_builder.ArrayBuilder T N) (v : T) :
      Reachable b → b.push v = move_builder.PushResult.NotFull b2 → Reachable b2
  | mutate {T : Type} {N : Nat} (b : move_builder.ArrayBuilder T N) (l : List T) :
      Reachable b → l.length = b.len → Reachable (b.write_slice l)

/-- A producer that never writes through the slice it is handed. -/
def NonMutating (P : SliceFn σ T E) : Prop :=
  ∀ s l, (P.f s l).2.1 = l

/-- A producer that never returns an error. -/
def NeverFails (P : SliceFn σ T E) : Prop :=
  ∀ s l, ∃ v, (P.f s l).2.2 = Except.ok v

/-- The values returned by the successful invocations of a trace. -/
def outs_of (tr : List (Call T E)) : List T :=
  tr.filterMap fun c => c.out.toOption

/-- The iterator's size hint honours the `Iterator::size_hint` contract: an
upper bound of `m` means no more than `m` items can be yielded. -/
def HintHonest (it : Iter T σ) (s : σ) : Prop :=
  ∀ m, (it.size_hint s).2 = some m → ∀ k, (it.take s k).length ≤ m

/-- The trace a well-behaved run produces when the builder already holds
`pre` and the producer goes on to return the values `vs`: each call sees the
elements accumulated so far and succeeds with the next value. -/
def expected_trace (pre : List T) : List T → List (Call T E)
  | [] => []
  | v :: vs => ⟨pre, Except.ok v⟩ :: expected_trace (pre ++ [v]) vs

/-- A producer that writes through the slice it is handed (setting every
element to `0`) while returning `10, 20, 30, ...` on successive calls. -/
def mut_producer : SliceFn Nat Nat Unit where
  f := fun s l => (s + 1, l.map fun _ => 0, Except.ok (10 * (s + 1)))
  len_eq := fun _ l => l.length_map _

/-- A producer that returns `0, 1, 2, ...` and leaves the slice alone. -/
def count_producer : SliceFn Nat Nat Unit where
  f := fun s l => (s + 1, l, Except.ok s)
  len_eq := fun _ _ => rfl

/-- A producer that succeeds with `7` on its first call and fails on its
second (when the slice already holds one element). -/
def fail_at_one_producer : SliceFn Unit Nat Unit where
  f := fun s l =>
    if l.length = 1 then (s, l, Except.error ()) else (s, l, Except.ok 7)
  len_eq := fun s l => by
    by_cases h : l.length = 1 <;> simp [h]

/-- The infinite iterator `0, 1, 2, ...` with no upper size bound. -/
def nat_iter : Iter Nat Nat where
  next := fun s => some (s, s + 1)
  size_hint := fun _ => (0, none)

/-- An iterator whose size hint promises at most two items. -/
def short_hint_iter : Iter Nat Nat where
  next := fun s => if s < 2 then some (s, s + 1) else none
  size_hint := fun s => (2 - s, some (2 - s))

/-- An iterator yielding exactly three items, with no upper size bound. -/
def three_iter : Iter Nat Nat where
  next := fun s => if s < 3 then some (s, s + 1) else none
  size_hint := fun _ => (0, none)

/-!  Helper lemmas shared by the claim theorems.  -/

/-- The length of a typestate builder is the length of its element list. -/
theorem move_len_mk (l : List T) :
    (⟨⟨⟨l⟩⟩⟩ : move_builder.ArrayBuilder T N).len = l.length := rfl

/-- The initialized slice of a typestate builder is its element list. -/
theorem move_fs_mk (l : List T) :
    (⟨⟨⟨l⟩⟩⟩ : move_builder.ArrayBuilder T N).finished_slice = l := rfl

/-- Every typestate builder is determined by its element list. -/
theorem move_eta (b : move_builder.ArrayBuilder T N) :
    b = ⟨⟨⟨b.builder.vec.data⟩⟩⟩ := rfl

/-- Writing a slice just replaces the element list. -/
theorem write_slice_eq (b : move_builder.ArrayBuilder T N) (l : List T) :
    b.write_slice l = ⟨⟨⟨l⟩⟩⟩ := rfl

/-- Characterization of `move_builder::ArrayBuilder::push`: append the value,
then report the array when `N` is reached and the new builder otherwise. -/
theorem move_push_eq (b : move_builder.ArrayBuilder T N) (v : T) :
    b.push v =
      if N ≤ b.builder.vec.data.length + 1
      then move_builder.PushResult.Full (b.builder.vec.data ++ [v])
      else move_builder.PushResult.NotFull ⟨⟨⟨b.builder.vec.data ++ [v]⟩⟩⟩ := by
  by_cases hN : N ≤ b.builder.vec.data.length + 1 <;>
    simp [move_builder.ArrayBuilder.push, builder.ArrayBuilder.push_unchecked,
      builder.ArrayBuilder.push_result, builder.ArrayVec.push_unchecked,
      builder.ArrayBuilder.len, builder.ArrayVec.len,
      builder.ArrayBuilder.finish_unchecked, builder.ArrayVec.into_inner_unchecked, hN]

/-- Characterization of `move_builder::ArrayBuilder::start`: the empty array
when `N = 0`, the empty builder otherwise. -/
theorem move_start_eq (T : Type) (N : Nat) :
    move_builder.ArrayBuilder.start T N =
      if N = 0 then move_builder.PushResult.Full []
      else move_builder.PushResult.NotFull ⟨⟨⟨[]⟩⟩⟩ := by
  by_cases hN : N = 0
  · subst hN
    simp [move_builder.ArrayBuilder.start, builder.ArrayBuilder.new,
      builder.ArrayVec.new, builder.ArrayBuilder.try_finish, builder.ArrayVec.into_inner,
      builder.ArrayVec.len]
  · have hN2 : ¬(0 = N) := fun h => hN h.symm
    simp [move_builder.ArrayBuilder.start, builder.ArrayBuilder.new,
      builder.ArrayVec.new, builder.ArrayBuilder.try_finish, builder.ArrayVec.into_inner,
      builder.ArrayVec.len, hN, hN2]

/-- C1: every reachable typestate builder satisfies `len < N` — `start`
hands out a builder only when `N > 0`, `push` returns a builder only while
the buffer is still not full, and slice mutation cannot change the length —
so the precondition of the unchecked push inside `move_builder`'s `push`
holds whenever `push` is invoked on a reachable builder. -/
theorem c1_typestate_invariant {T : Type} {N : Nat}
    (b : move_builder.ArrayBuilder T N) (h : Reachable b) :
    b.len < N ∧ b.builder.push_unchecked_pre := by
  have main : b.len < N := by
    induction h with
    | start b0 hb =>
      rw [move_start_eq] at hb
      by_cases hN : N = 0
      · rw [if_pos hN] at hb
        exact absurd hb (by simp)
      · rw [if_neg hN] at hb
        cases hb
        simp only [move_len_mk, List.length_nil]
        omega
    | push b0 b2 v hr hp ih =>
      rw [move_push_eq] at hp
      by_cases hN : N ≤ b0.builder.vec.data.length + 1
      · rw [if_pos hN] at hp
        exact absurd hp (by simp)
      · rw [if_neg hN] at hp
        cases hp
        simp only [move_len_mk, List.length_append, List.length_singleton]
        omega
    | mutate b0 l hr hl ih =>
      rw [write_slice_eq]
      simp only [move_len_mk]
      rw [hl]
      exact ih
  exact ⟨main, main⟩

/-- Witness for C1 at a concrete reachable builder. -/
theorem c1_witness :
    (⟨⟨⟨[]⟩⟩⟩ : move_builder.ArrayBuilder Nat 2).len < 2 ∧
    (⟨⟨⟨[]⟩⟩⟩ : move_builder.ArrayBuilder Nat 2).builder.push_unchecked_pre :=
  c1_typestate_invariant _ (Reachable.start _ rfl)

/-- C5: `try_push` on a full low-level builder (`len = N`, the only full
state under the buffer invariant `len ≤ N`) returns the exact value pushed,
wrapped in `Overflow`, with the builder unchanged; on a non-full builder it
appends the value and reports `Full` exactly when the new length reaches
`N`. -/
theorem c5_try_push_overflow {T : Type} {N : Nat}
    (b : builder.ArrayBuilder T N) (v : T) (hwf : b.len ≤ N) :
    (b.len = N → b.try_push v = (b, Except.error ⟨v⟩)) ∧
    (b.len ≠ N →
      b.try_push v =
        (⟨⟨b.vec.data ++ [v]⟩⟩,
         Except.ok
           (if b.len + 1 = N
            then builder.PushResult.Full
            else builder.PushResult.NotFull))) := by
  constructor
  · intro hfull
    have hvec : b.vec.data.length = N := hfull
    simp [builder.ArrayBuilder.try_push, builder.ArrayVec.try_push,
      builder.ArrayVec.len, hvec]
  · intro hne
    have hlt : b.vec.data.length < N := by
      have h1 : b.vec.data.length ≤ N := hwf
      have h2 : ¬(b.vec.data.length = N) := hne
      omega
    by_cases hfull2 : b.vec.data.length + 1 = N
    · simp [builder.ArrayBuilder.try_push, builder.ArrayVec.try_push,
        builder.ArrayVec.len, builder.ArrayBuilder.push_result,
        builder.ArrayBuilder.len, hlt, hfull2]
    · have hge : ¬(N ≤ b.vec.data.length + 1) := by omega
      simp [builder.ArrayBuilder.try_push, builder.ArrayVec.try_push,
        builder.ArrayVec.len, builder.ArrayBuilder.push_result,
        builder.ArrayBuilder.len, hlt, hfull2, hge]

/-- Witness for C5 at a full and at a non-full builder. -/
theorem c5_witness :
    (⟨⟨[5]⟩⟩ : builder.ArrayBuilder Nat 1).try_push 9 =
      (⟨⟨[5]⟩⟩, Except.error ⟨9⟩) ∧
    (⟨⟨[]⟩⟩ : builder.ArrayBuilder Nat 1).try_push 9 =
      (⟨⟨[9]⟩⟩, Except.ok builder.PushResult.Full) := by
  constructor
  · exact (c5_try_push_overflow ⟨⟨[5]⟩⟩ 9 (by decide)).1 rfl
  · have h := (c5_try_push_overflow (⟨⟨[]⟩⟩ : builder.ArrayBuilder Nat 1) 9
      (by decide)).2 (by decide)
    simpa using h

/-- C6: `try_finish` succeeds, yielding the length-`N` array, exactly when
`len = N`, and otherwise returns the builder unchanged. -/
theorem c6_try_finish {T : Type} {N : Nat} (b : builder.ArrayBuilder T N) :
    (b.len = N → b.try_finish = Except.ok b.vec.data ∧ b.vec.data.length = N) ∧
    (b.len ≠ N → b.try_finish = Except.error b) ∧
    (∀ arr, b.try_finish = Except.ok arr → b.len = N ∧ arr = b.vec.data) := by
  refine ⟨?_, ?_, ?_⟩
  · intro hfull
    have hvec : b.vec.data.length = N := hfull
    constructor
    · simp [builder.ArrayBuilder.try_finish, builder.ArrayVec.into_inner,
        builder.ArrayVec.len, hvec]
    · exact hvec
  · intro hne
    have hvec : ¬(b.vec.data.length = N) := hne
    simp [builder.ArrayBuilder.try_finish, builder.ArrayVec.into_inner,
      builder.ArrayVec.len, hvec]
  · intro arr harr
    by_cases hfull : b.vec.data.length = N
    · simp [builder.ArrayBuilder.try_finish, builder.ArrayVec.into_inner,
        builder.ArrayVec.len, hfull] at harr
      exact ⟨hfull, harr.symm⟩
    · simp [builder.ArrayBuilder.try_finish, builder.ArrayVec.into_inner,
        builder.ArrayVec.len, hfull] at harr

/-- Witness for C6 at a full and at a partially filled builder. -/
theorem c6_witness :
    (⟨⟨[1, 2]⟩⟩ : builder.ArrayBuilder Nat 2).try_finish = Except.ok [1, 2] ∧
    (⟨⟨[1]⟩⟩ : builder.ArrayBuilder Nat 2).try_finish = Except.error ⟨⟨[1]⟩⟩ := by
  constructor
  · exact ((c6_try_finish ⟨⟨[1, 2]⟩⟩).1 rfl).1
  · exact (c6_try_finish ⟨⟨[1]⟩⟩).2.1 (by decide)

/-- Feeding a builder exactly the values that complete it produces
incomplete results for every push but the last, which completes the array
with all elements in order. -/
theorem push_events_spec {T : Type} {N : Nat} :
    ∀ (vs : List T) (b : move_builder.ArrayBuilder T N),
      b.len + vs.length = N → vs ≠ [] →
      ∃ bs : List (move_builder.ArrayBuilder T N),
        push_events b vs =
          bs.map move_builder.PushResult.NotFull ++
            [move_builder.PushResult.Full (b.builder.vec.data ++ vs)] ∧
        bs.length = vs.length - 1 := by
  intro vs
  induction vs with
  | nil => intro b hlen hne; exact absurd rfl hne
  | cons v vs ih =>
    intro b hlen _
    have hblen : b.builder.vec.data.length + (vs.length + 1) = N := hlen
    rcases hvs : vs with _ | ⟨w, ws⟩
    · have hfull : N ≤ b.builder.vec.data.length + 1 := by
        subst hvs; simp at hblen; omega
      refine ⟨[], ?_, by simp⟩
      simp only [push_events, move_push_eq, if_pos hfull]
      simp
    · have hnotfull : ¬(N ≤ b.builder.vec.data.length + 1) := by
        subst hvs; simp at hblen ⊢; omega
      rw [← hvs]
      have hstep : b.push v =
          move_builder.PushResult.NotFull ⟨⟨⟨b.builder.vec.data ++ [v]⟩⟩⟩ := by
        rw [move_push_eq, if_neg hnotfull]
      obtain ⟨bs2, hev2, hlen2⟩ :=
        ih (⟨⟨⟨b.builder.vec.data ++ [v]⟩⟩⟩ : move_builder.ArrayBuilder T N)
          (by simp [move_len_mk]; omega) (by simp [hvs])
      refine ⟨⟨⟨⟨b.builder.vec.data ++ [v]⟩⟩⟩ :: bs2, ?_, by simp [hlen2, hvs]⟩
      simp only [push_events, hstep]
      rw [hev2]
      simp

/-- C7: `start` on `N = 0` immediately yields the empty array and no
builder; on `N > 0` it yields an empty builder, and feeding that builder a
sequence of `N` values produces exactly one `Full` result — on the `N`-th
push — carrying the `N` pushed values in order. -/
theorem c7_start_and_push_sequence (T : Type) (N : Nat) (vs : List T) :
    (N = 0 → move_builder.ArrayBuilder.start T N = move_builder.PushResult.Full []) ∧
    (0 < N →
      move_builder.ArrayBuilder.start T N =
        move_builder.PushResult.NotFull ⟨⟨⟨[]⟩⟩⟩ ∧
      (⟨⟨⟨[]⟩⟩⟩ : move_builder.ArrayBuilder T N).len = 0) ∧
    (0 < N → vs.length = N →
      ∃ bs : List (move_builder.ArrayBuilder T N),
        push_events (⟨⟨⟨[]⟩⟩⟩ : move_builder.ArrayBuilder T N) vs =
          bs.map move_builder.PushResult.NotFull ++
            [move_builder.PushResult.Full vs] ∧
        bs.length = N - 1) := by
  refine ⟨?_, ?_, ?_⟩
  · intro h0
    rw [move_start_eq, if_pos h0]
  · intro hpos
    constructor
    · rw [move_start_eq, if_neg (by omega)]
    · rfl
  · intro hpos hlen
    obtain ⟨bs, hev, hbs⟩ := push_events_spec vs (⟨⟨⟨[]⟩⟩⟩ : move_builder.ArrayBuilder T N)
      (by simp [move_len_mk, hlen]) (by intro h; subst h; simp at hlen; omega)
    exact ⟨bs, by simpa using hev, by omega⟩

/-- Witness for C7 at `N = 0` and at `N = 3` with three pushes. -/
theorem c7_witness :
    move_builder.ArrayBuilder.start Nat 0 = move_builder.PushResult.Full [] ∧
    move_builder.ArrayBuilder.start Nat 3 =
      move_builder.PushResult.NotFull ⟨⟨⟨[]⟩⟩⟩ ∧
    ∃ bs : List (move_builder.ArrayBuilder Nat 3),
      push_events (⟨⟨⟨[]⟩⟩⟩ : move_builder.ArrayBuilder Nat 3) [4, 5, 6] =
        bs.map move_builder.PushResult.NotFull ++
          [move_builder.PushResult.Full [4, 5, 6]] ∧
      bs.length = 3 - 1 := by
  refine ⟨?_, ?_, ?_⟩
  · exact (c7_start_and_push_sequence Nat 0 []).1 rfl
  · exact ((c7_start_and_push_sequence Nat 3 []).2.1 (by decide)).1
  · exact (c7_start_and_push_sequence Nat 3 [4, 5, 6]).2.2 (by decide) (by decide)

/-- Elements of `List.replicate`. -/
theorem replicate_get? {α : Type} (a : α) :
    ∀ n i, i < n → (List.replicate n a).get? i = some a := by
  intro n
  induction n with
  | zero => intro i h; omega
  | succ n ih =>
    intro i h
    cases i with
    | zero => simp [List.replicate_succ]
    | succ j =>
      simp only [List.replicate_succ, List.get?_cons_succ]
      exact ih j (by omega)

/-- Once the buffer is non-empty, every further element the `build_cloned`
loop appends is a clone of the FIRST buffered element (the loop reads
`finished_slice()[0]` each iteration). -/
theorem build_cloned_loop_spec {T : Type} [Inhabited T] {N : Nat} (c : T → T) :
    ∀ (fuel : Nat) (x : T) (xs : List T) (item : T),
      (x :: xs).length + 1 + fuel = N →
      build_cloned_loop c (⟨⟨⟨x :: xs⟩⟩⟩ : move_builder.ArrayBuilder T N) item =
        (x :: xs) ++ item :: List.replicate fuel (c x) := by
  intro fuel
  induction fuel with
  | zero =>
    intro x xs item hlen
    have hfull : N ≤ (x :: xs).length + 1 := by omega
    rw [build_cloned_loop, move_push_eq, if_pos hfull]
    simp
  | succ fuel ih =>
    intro x xs item hlen
    have hnotfull : ¬(N ≤ (x :: xs).length + 1) := by simp at hlen ⊢; omega
    rw [build_cloned_loop, move_push_eq, if_neg hnotfull]
    dsimp only []
    have hrec := ih x (xs ++ [item]) (c x) (by simp at hlen ⊢; omega)
    simp only [move_builder.ArrayBuilder.finished_slice,
      builder.ArrayBuilder.finished_slice, builder.ArrayVec.as_slice,
      List.cons_append, List.headI]
    rw [hrec]
    simp [List.replicate_succ]

/-- Closed form of `build_cloned`: the seed followed by `N - 1` clones of
the seed itself. -/
theorem build_cloned_closed {T : Type} [Inhabited T] (c : T → T) (seed : T)
    (N : Nat) (hN : 1 ≤ N) :
    build_cloned c seed N = seed :: List.replicate (N - 1) (c seed) := by
  unfold build_cloned
  rw [move_start_eq, if_neg (by omega)]
  dsimp only []
  by_cases h1 : N = 1
  · subst h1
    rw [build_cloned_loop, move_push_eq, if_pos (by simp)]
    simp
  · rw [build_cloned_loop, move_push_eq, if_neg (by simp; omega)]
    dsimp only []
    have hrec := build_cloned_loop_spec (N := N) c (N - 2) seed [] (c seed)
      (by simp; omega)
    simp only [move_builder.ArrayBuilder.finished_slice,
      builder.ArrayBuilder.finished_slice, builder.ArrayVec.as_slice,
      List.nil_append, List.headI]
    rw [hrec]
    have h2 : N - 1 = (N - 2) + 1 := by omega
    rw [h2, List.replicate_succ]
    simp

/-- C2 (amended): for `N ≥ 1`, `build_cloned` returns the seed as element 0
and a clone of element 0 — that is, of the seed itself, not of the immediate
predecessor — as every element `i ≥ 1`. -/
theorem c2_build_cloned_amended {T : Type} [Inhabited T] (c : T → T)
    (seed : T) (N : Nat) (hN : 1 ≤ N) :
    build_cloned c seed N = seed :: List.replicate (N - 1) (c seed) ∧
    (build_cloned c seed N).length = N ∧
    (build_cloned c seed N).get? 0 = some seed ∧
    ∀ i, 1 ≤ i → i < N → (build_cloned c seed N).get? i = some (c seed) := by
  have h := build_cloned_closed c seed N hN
  refine ⟨h, ?_, ?_, ?_⟩
  · rw [h]; simp; omega
  · rw [h]; rfl
  · intro i h1 hi
    rw [h]
    cases i with
    | zero => omega
    | succ j =>
      simp only [List.get?_cons_succ]
      exact replicate_get? (c seed) (N - 1) j (by omega)

/-- C2 counterexample: with `clone = Nat.succ`, seed `0` and `N = 3`, the
array is `[0, 1, 1]` — element 2 equals `1`, a clone of element 0, and is
NOT `Nat.succ 1 = 2`, the clone of its immediate predecessor (element 1). -/
theorem c2_counterexample :
    build_cloned Nat.succ 0 3 = [0, 1, 1] ∧
    (build_cloned Nat.succ 0 3).get? 1 = some 1 ∧
    (build_cloned Nat.succ 0 3).get? 2 = some 1 ∧
    some (1 : Nat) ≠ some (Nat.succ 1) := by
  have h : build_cloned Nat.succ 0 3 = [0, 1, 1] := by
    rw [build_cloned_closed Nat.succ 0 3 (by decide)]
    rfl
  refine ⟨h, ?_, ?_, by decide⟩ <;> rw [h] <;> rfl

/-- Witness for C2's amended theorem at `N = 3`. -/
theorem c2_witness :
    build_cloned Nat.succ 0 3 = 0 :: List.replicate (3 - 1) (Nat.succ 0) :=
  (c2_build_cloned_amended Nat.succ 0 3 (by decide)).1

/-- Characterization of the panicking `push`: append below capacity, panic
(`none`) at capacity. -/
theorem builder_push_eq {T : Type} {N : Nat} (b : builder.ArrayBuilder T N)
    (v : T) :
    b.push v =
      if b.vec.data.length < N
      then some (⟨⟨b.vec.data ++ [v]⟩⟩,
        if N ≤ b.vec.data.length + 1
        then builder.PushResult.Full
        else builder.PushResult.NotFull)
      else none := by
  by_cases h : b.vec.data.length < N <;>
    simp [builder.ArrayBuilder.push, builder.ArrayBuilder.try_push,
      builder.ArrayVec.try_push, builder.ArrayVec.len,
      builder.ArrayBuilder.push_result, builder.ArrayBuilder.len, h]

/-- `extend` succeeds on any batch that fits, appending it in order. -/
theorem extend_fits {T : Type} {N : Nat} :
    ∀ (items : List T) (b : builder.ArrayBuilder T N),
      b.len + items.length ≤ N →
      b.extend items = some ⟨⟨b.vec.data ++ items⟩⟩ := by
  intro items
  induction items with
  | nil => intro b _; simp [builder.ArrayBuilder.extend]
  | cons v rest ih =>
    intro b hlen
    have hblen : b.vec.data.length + (rest.length + 1) ≤ N := hlen
    have hlt : b.vec.data.length < N := by omega
    simp only [builder.ArrayBuilder.extend, builder_push_eq, if_pos hlt]
    have harg : (⟨⟨b.vec.data ++ [v]⟩⟩ : builder.ArrayBuilder T N).len +
        rest.length ≤ N := by
      simp only [builder.ArrayBuilder.len, builder.ArrayVec.len,
        List.length_append, List.length_singleton]
      omega
    rw [ih ⟨⟨b.vec.data ++ [v]⟩⟩ harg]
    simp

/-- `extend` panics on any batch that exceeds the remaining capacity. -/
theorem extend_overflows {T : Type} {N : Nat} :
    ∀ (items : List T) (b : builder.ArrayBuilder T N),
      b.len ≤ N → N < b.len + items.length →
      b.extend items = none := by
  intro items
  induction items with
  | nil => intro b hwf hover; simp [builder.ArrayBuilder.len] at hwf hover; omega
  | cons v rest ih =>
    intro b hwf hover
    by_cases hfull : b.vec.data.length < N
    · simp only [builder.ArrayBuilder.extend, builder_push_eq, if_pos hfull]
      have hwf2 : (⟨⟨b.vec.data ++ [v]⟩⟩ : builder.ArrayBuilder T N).len ≤ N := by
        simp only [builder.ArrayBuilder.len, builder.ArrayVec.len,
          List.length_append, List.length_singleton]
        omega
      have hover2 : N < (⟨⟨b.vec.data ++ [v]⟩⟩ : builder.ArrayBuilder T N).len +
          rest.length := by
        simp only [builder.ArrayBuilder.len, builder.ArrayVec.len,
          List.length_append, List.length_singleton, List.length_cons] at hover ⊢
        omega
      exact ih ⟨⟨b.vec.data ++ [v]⟩⟩ hwf2 hover2
    · simp only [builder.ArrayBuilder.extend, builder_push_eq, if_neg hfull]

/-- C10: extending a low-level builder pushes the items in order with the
panicking `push`; a batch that fits leaves the previous elements followed by
the batch, while a batch past the remaining capacity panics — exactly the
prefix that fits is accepted, and the panic fires on the first item past
capacity. -/
theorem c10_extend {T : Type} {N : Nat} (b : builder.ArrayBuilder T N)
    (items : List T) (hwf : b.len ≤ N) :
    (b.len + items.length ≤ N →
      b.extend items = some ⟨⟨b.vec.data ++ items⟩⟩) ∧
    (N < b.len + items.length →
      b.extend items = none ∧
      b.extend (items.take (N - b.len)) =
        some ⟨⟨b.vec.data ++ items.take (N - b.len)⟩⟩ ∧
      b.extend (items.take (N - b.len + 1)) = none) := by
  constructor
  · intro hfits
    exact extend_fits items b hfits
  · intro hover
    have hlen : b.vec.data.length ≤ N := hwf
    refine ⟨extend_overflows items b hwf hover, ?_, ?_⟩
    · apply extend_fits
      have : (items.take (N - b.len)).length = N - b.len := by
        rw [List.length_take]
        simp only [builder.ArrayBuilder.len, builder.ArrayVec.len] at hover ⊢
        omega
      rw [this]
      simp only [builder.ArrayBuilder.len, builder.ArrayVec.len]
      omega
    · apply extend_overflows _ _ hwf
      have : (items.take (N - b.len + 1)).length = N - b.len + 1 := by
        rw [List.length_take]
        simp only [builder.ArrayBuilder.len, builder.ArrayVec.len] at hover ⊢
        omega
      rw [this]
      simp only [builder.ArrayBuilder.len, builder.ArrayVec.len] at hover ⊢
      omega

/-- Witness for C10: a fitting batch and an overflowing batch at `N = 2`. -/
theorem c10_witness :
    (⟨⟨[]⟩⟩ : builder.ArrayBuilder Nat 2).extend [7, 8] = some ⟨⟨[7, 8]⟩⟩ ∧
    (⟨⟨[]⟩⟩ : builder.ArrayBuilder Nat 2).extend [7, 8, 9] = none := by
  constructor
  · have h := (c10_extend (⟨⟨[]⟩⟩ : builder.ArrayBuilder Nat 2) [7, 8]
      (by decide)).1 (by decide)
    simpa using h
  · exact ((c10_extend (⟨⟨[]⟩⟩ : builder.ArrayBuilder Nat 2) [7, 8, 9]
      (by decide)).2 (by decide)).1

/-- C9: each infallible variant is the fallible primitive specialized to a
producer that cannot fail — `try_build_with` on the `Ok`-wrapped producer
always succeeds, with exactly the array `build_with` returns (its error
payload would inhabit `Empty`, so no failure path is observable), and
`build_indexed` / `build` are `build_with` on the producer that reads only
the slice length / nothing. -/
theorem c9_infallible_variants {σ T : Type} (Q : SliceFnI σ T) (s : σ)
    (N : Nat) (g : σ → Nat → σ × T) (g2 : σ → σ × T) :
    try_build_with Q.ok_wrap s N = Except.ok (build_with Q s N) ∧
    build_indexed g s N = build_with (of_indexed g) s N ∧
    build g2 s N = build_with (of_const g2) s N := by
  refine ⟨?_, rfl, rfl⟩
  cases h : try_build_with Q.ok_wrap s N with
  | ok a => rw [build_with, h]
  | error e => exact e.error.elim

/-- The trace-collecting loop computes the same result as the source loop. -/
theorem try_build_loop_t_fst {σ T E : Type} {N : Nat} (P : SliceFn σ T E) :
    ∀ (fuel : Nat) (b : move_builder.ArrayBuilder T N) (s : σ),
      N ≤ b.len + fuel →
      (try_build_loop_t P s b).1 = try_build_loop P s b := by
  intro fuel
  induction fuel with
  | zero =>
    intro b s hfuel
    rw [try_build_loop_t, try_build_loop]
    rcases hf : P.f s b.finished_slice with ⟨s2, slice2, r⟩
    cases r with
    | error e => dsimp only []
    | ok v =>
      dsimp only []
      have hlen : slice2.length = b.len := by
        have h2 := P.len_eq s b.finished_slice
        rw [hf] at h2
        exact h2
      cases hp : (b.write_slice slice2).push v with
      | Full arr => dsimp only []
      | NotFull b2 =>
        exfalso
        rw [write_slice_eq, move_push_eq] at hp
        dsimp only [] at hp
        rw [if_pos (by omega)] at hp
        exact absurd hp (by simp)
  | succ fuel ih =>
    intro b s hfuel
    rw [try_build_loop_t, try_build_loop]
    rcases hf : P.f s b.finished_slice with ⟨s2, slice3, r⟩
    cases r with
    | error e => dsimp only []
    | ok v =>
      dsimp only []
      have hlen : slice3.length = b.len := by
        have h2 := P.len_eq s b.finished_slice
        rw [hf] at h2
        exact h2
      cases hp : (b.write_slice slice3).push v with
      | Full arr => dsimp only []
      | NotFull b2 =>
        dsimp only []
        have hb2 : b2.len = slice3.length + 1 := by
          rw [write_slice_eq, move_push_eq] at hp
          dsimp only [] at hp
          by_cases hN : N ≤ slice3.length + 1
          · rw [if_pos hN] at hp
            exact absurd hp (by simp)
          · rw [if_neg hN] at hp
            cases hp
            simp [move_len_mk]
        exact ih b2 s2 (by omega)

/-- In any run of the instrumented loop, the producer's `k`-th invocation
sees a slice holding `b.len + k` elements, and if it returns an error then
that invocation is the last one and the loop reports exactly that error at
index `b.len + k`. -/
theorem try_build_loop_t_entries {σ T E : Type} {N : Nat} (P : SliceFn σ T E) :
    ∀ (fuel : Nat) (b : move_builder.ArrayBuilder T N) (s : σ),
      N ≤ b.len + fuel →
      ∀ k c, (try_build_loop_t P s b).2.get? k = some c →
        c.slice.length = b.len + k ∧
        ∀ e, c.out = Except.error e →
          (try_build_loop_t P s b).1 = Except.error ⟨e, b.len + k⟩ ∧
          (try_build_loop_t P s b).2.length = k + 1 := by
  intro fuel
  induction fuel with
  | zero =>
    intro b s hfuel k c hk
    rw [try_build_loop_t] at hk ⊢
    rcases hf : P.f s b.finished_slice with ⟨s2, slice2, r⟩
    rw [hf] at hk
    have hlen : slice2.length = b.len := by
      have h2 := P.len_eq s b.finished_slice
      rw [hf] at h2
      exact h2
    cases r with
    | error e0 =>
      dsimp only [] at hk ⊢
      cases k with
      | zero =>
        rw [List.get?_cons_zero] at hk
        cases hk
        refine ⟨rfl, ?_⟩
        intro e he
        cases he
        exact ⟨by simp [hlen], rfl⟩
      | succ j => rw [List.get?_cons_succ, List.get?_nil] at hk; cases hk
    | ok v =>
      dsimp only [] at hk ⊢
      cases hp : (b.write_slice slice2).push v with
      | Full arr =>
        rw [hp] at hk
        dsimp only [] at hk ⊢
        cases k with
        | zero =>
          rw [List.get?_cons_zero] at hk
          cases hk
          refine ⟨rfl, ?_⟩
          intro e he
          cases he
        | succ j => rw [List.get?_cons_succ, List.get?_nil] at hk; cases hk
      | NotFull b2 =>
        exfalso
        rw [write_slice_eq, move_push_eq] at hp
        dsimp only [] at hp
        rw [if_pos (by omega)] at hp
        exact absurd hp (by simp)
  | succ fuel ih =>
    intro b s hfuel k c hk
    rw [try_build_loop_t] at hk ⊢
    rcases hf : P.f s b.finished_slice with ⟨s2, slice2, r⟩
    rw [hf] at hk
    have hlen : slice2.length = b.len := by
      have h2 := P.len_eq s b.finished_slice
      rw [hf] at h2
      exact h2
    cases r with
    | error e0 =>
      dsimp only [] at hk ⊢
      cases k with
      | zero =>
        rw [List.get?_cons_zero] at hk
        cases hk
        refine ⟨rfl, ?_⟩
        intro e he
        cases he
        exact ⟨by simp [hlen], rfl⟩
      | succ j => rw [List.get?_cons_succ, List.get?_nil] at hk; cases hk
    | ok v =>
      dsimp only [] at hk ⊢
      cases hp : (b.write_slice slice2).push v with
      | Full arr =>
        rw [hp] at hk
        dsimp only [] at hk ⊢
        cases k with
        | zero =>
          rw [List.get?_cons_zero] at hk
          cases hk
          refine ⟨rfl, ?_⟩
          intro e he
          cases he
        | succ j => rw [List.get?_cons_succ, List.get?_nil] at hk; cases hk
      | NotFull b2 =>
        have hb2 : b2.len = slice2.length + 1 := by
          rw [write_slice_eq, move_push_eq] at hp
          dsimp only [] at hp
          by_cases hN : N ≤ slice2.length + 1
          · rw [if_pos hN] at hp
            exact absurd hp (by simp)
          · rw [if_neg hN] at hp
            cases hp
            simp [move_len_mk]
        rw [hp] at hk
        dsimp only [] at hk ⊢
        cases k with
        | zero =>
          rw [List.get?_cons_zero] at hk
          cases hk
          refine ⟨rfl, ?_⟩
          intro e he
          cases he
        | succ j =>
          rw [List.get?_cons_succ] at hk
          obtain ⟨hslice, herr⟩ := ih b2 s2 (by omega) j c hk
          refine ⟨by rw [hslice]; omega, ?_⟩
          intro e he
          obtain ⟨hres, hlen2⟩ := herr e he
          refine ⟨?_, ?_⟩
          · rw [hres]
            have : b2.len + j = b.len + (j + 1) := by omega
            rw [this]
          · rw [List.length_cons, hlen2]

/-- C4: if the producer's `k`-th invocation (0-indexed) is the one that
returns an error `e` — the loop stops at the first error, so every earlier
invocation succeeded — then `try_build_with` returns the single failure
value carrying `e` and index `k`, no array is produced, and `k` equals the
number of initialized elements at the moment of the failed call. -/
theorem c4_indexed_failure {σ T E : Type} (P : SliceFn σ T E) (s : σ)
    (N k : Nat) (e : E) (c : Call T E)
    (hk : (try_build_with_t P s N).2.get? k = some c)
    (he : c.out = Except.error e) :
    try_build_with P s N = Except.error ⟨e, k⟩ ∧
    (try_build_with_t P s N).1 = try_build_with P s N ∧
    c.slice.length = k ∧
    (try_build_with_t P s N).2.length = k + 1 := by
  by_cases hN : N = 0
  · exfalso
    have ht : try_build_with_t P s N = (Except.ok [], []) := by
      unfold try_build_with_t
      rw [move_start_eq, if_pos hN]
    rw [ht] at hk
    simp at hk
  · have ht : try_build_with_t P s N =
        try_build_loop_t P s (⟨⟨⟨[]⟩⟩⟩ : move_builder.ArrayBuilder T N) := by
      unfold try_build_with_t
      rw [move_start_eq, if_neg hN]
    have hw : try_build_with P s N =
        try_build_loop P s (⟨⟨⟨[]⟩⟩⟩ : move_builder.ArrayBuilder T N) := by
      unfold try_build_with
      rw [move_start_eq, if_neg hN]
    rw [ht] at hk
    have hfuel : N ≤ (⟨⟨⟨[]⟩⟩⟩ : move_builder.ArrayBuilder T N).len + N := by
      simp [move_len_mk]
    obtain ⟨hslice, herr⟩ :=
      try_build_loop_t_entries P N (⟨⟨⟨[]⟩⟩⟩ : move_builder.ArrayBuilder T N)
        s hfuel k c hk
    obtain ⟨hres, hlen⟩ := herr e he
    have hfst := try_build_loop_t_fst P N
      (⟨⟨⟨[]⟩⟩⟩ : move_builder.ArrayBuilder T N) s hfuel
    simp only [move_len_mk, List.length_nil, Nat.zero_add] at hslice hres
    refine ⟨?_, ?_, hslice, ?_⟩
    · rw [hw, ← hfst, hres]
    · rw [ht, hw, hfst]
    · rw [ht, hlen]

/-- Witness for C4: a producer failing on its second call (index 1) in a
length-3 build. -/
theorem c4_witness :
    try_build_with fail_at_one_producer () 3 = Except.error ⟨(), 1⟩ := by
  have hk : (try_build_with_t fail_at_one_producer () 3).2.get? 1 =
      some ⟨[7], Except.error ()⟩ := by
    simp [try_build_with_t, try_build_loop_t, fail_at_one_producer,
      move_builder.ArrayBuilder.start, builder.ArrayBuilder.new,
      builder.ArrayVec.new, builder.ArrayBuilder.try_finish,
      builder.ArrayVec.into_inner, builder.ArrayBuilder.len,
      builder.ArrayVec.len, move_builder.ArrayBuilder.push,
      move_builder.ArrayBuilder.write_slice, builder.ArrayBuilder.push_unchecked,
      builder.ArrayBuilder.push_result, builder.ArrayVec.push_unchecked,
      builder.ArrayBuilder.finish_unchecked, builder.ArrayVec.into_inner_unchecked,
      move_builder.ArrayBuilder.finished_slice,
      builder.ArrayBuilder.finished_slice, builder.ArrayVec.as_slice]
  exact (c4_indexed_failure fail_at_one_producer () 3 1 ()
    ⟨[7], Except.error ()⟩ hk rfl).1

/-- The successful outputs collected from an expected trace are exactly its
values. -/
theorem outs_of_expected {T E : Type} :
    ∀ (vs pre : List T), outs_of (expected_trace (E := E) pre vs) = vs := by
  intro vs
  induction vs with
  | nil => intro pre; rfl
  | cons v vs ih =>
    intro pre
    show v :: outs_of (expected_trace (pre ++ [v]) vs) = v :: vs
    exact congrArg (List.cons v) (ih (pre ++ [v]))

/-- An expected trace has one entry per value. -/
theorem expected_trace_length {T E : Type} :
    ∀ (vs pre : List T), (expected_trace (E := E) pre vs).length = vs.length := by
  intro vs
  induction vs with
  | nil => intro pre; rfl
  | cons v vs ih =>
    intro pre
    simp [expected_trace, ih]

/-- Entry `i` of an expected trace records the prefix extended by the first
`i` values, and the `i`-th value as a successful result. -/
theorem expected_trace_get? {T E : Type} :
    ∀ (vs pre : List T) (i : Nat), i < vs.length →
      ∃ v, vs.get? i = some v ∧
        (expected_trace (E := E) pre vs).get? i =
          some ⟨pre ++ vs.take i, Except.ok v⟩ := by
  intro vs
  induction vs with
  | nil => intro pre i h; simp at h
  | cons w vs ih =>
    intro pre i h
    cases i with
    | zero =>
      refine ⟨w, rfl, ?_⟩
      simp [expected_trace]
    | succ j =>
      have hj : j < vs.length := by simp at h; omega
      obtain ⟨v, hv, htr⟩ := ih (pre ++ [w]) j hj
      refine ⟨v, by simpa using hv, ?_⟩
      simp only [expected_trace, List.get?_cons_succ, List.take_succ_cons]
      rw [htr]
      simp [List.append_assoc]

/-- With a producer that neither fails nor writes through the slice, the
instrumented loop succeeds with the values the producer returns, and its
trace is the expected one. -/
theorem try_build_loop_t_ok {σ T E : Type} {N : Nat} (P : SliceFn σ T E)
    (hm : NonMutating P) (hnf : NeverFails P) :
    ∀ (fuel : Nat) (b : move_builder.ArrayBuilder T N) (s : σ),
      b.len + fuel = N → 0 < fuel →
      ∃ outs : List T, outs.length = fuel ∧
        try_build_loop_t P s b =
          (Except.ok (b.builder.vec.data ++ outs),
           expected_trace b.builder.vec.data outs) := by
  intro fuel
  induction fuel with
  | zero => intro b s h1 h2; omega
  | succ fuel ih =>
    intro b s hlen hpos
    rw [try_build_loop_t]
    rcases hfc : P.f s b.finished_slice with ⟨s2, slice2, r⟩
    have hslice : slice2 = b.finished_slice := by
      have h := hm s b.finished_slice
      rw [hfc] at h
      exact h
    obtain ⟨v, hv⟩ := hnf s b.finished_slice
    rw [hfc] at hv
    simp only [] at hv
    subst hv
    subst hslice
    dsimp only []
    by_cases hfull : N ≤ b.len + 1
    · have hfuel0 : fuel = 0 := by omega
      subst hfuel0
      have hfull2 : N ≤ b.finished_slice.length + 1 := hfull
      cases hp : (b.write_slice b.finished_slice).push v with
      | Full arr =>
        refine ⟨[v], rfl, ?_⟩
        rw [write_slice_eq, move_push_eq] at hp
        dsimp only [] at hp
        rw [if_pos hfull2] at hp
        cases hp
        dsimp only []
        rfl
      | NotFull b2 =>
        exfalso
        rw [write_slice_eq, move_push_eq] at hp
        dsimp only [] at hp
        rw [if_pos hfull2] at hp
        exact absurd hp (by simp)
    · have hfull2 : ¬(N ≤ b.finished_slice.length + 1) := hfull
      cases hp : (b.write_slice b.finished_slice).push v with
      | Full arr =>
        exfalso
        rw [write_slice_eq, move_push_eq] at hp
        dsimp only [] at hp
        rw [if_neg hfull2] at hp
        exact absurd hp (by simp)
      | NotFull b2 =>
        have hb2 : b2 = ⟨⟨⟨b.builder.vec.data ++ [v]⟩⟩⟩ := by
          rw [write_slice_eq, move_push_eq] at hp
          dsimp only [] at hp
          rw [if_neg hfull2] at hp
          cases hp
          rfl
        subst hb2
        obtain ⟨outs2, hlen2, hrec⟩ :=
          ih ⟨⟨⟨b.builder.vec.data ++ [v]⟩⟩⟩ s2
            (by
              have hb : b.len = b.builder.vec.data.length := rfl
              simp only [move_len_mk, List.length_append, List.length_singleton]
              omega)
            (by omega)
        dsimp only []
        rw [hrec]
        refine ⟨v :: outs2, by simp [hlen2], ?_⟩
        simp [expected_trace, List.append_assoc,
          move_builder.ArrayBuilder.finished_slice,
          builder.ArrayBuilder.finished_slice, builder.ArrayVec.as_slice]

/-- C3 (amended): for every producer that never fails and never writes
through the slice it receives, `try_build_with` invokes the producer exactly
`N` times, in index order with no re-invocation and no skipping, and the
slice passed to call `i` has length exactly `i` and equals, in order, the
values returned by calls `0..i`. -/
theorem c3_prefix_fidelity_amended {σ T E : Type} (P : SliceFn σ T E)
    (s : σ) (N : Nat) (hm : NonMutating P) (hnf : NeverFails P) :
    ∃ outs : List T, outs.length = N ∧
      try_build_with P s N = Except.ok outs ∧
      try_build_with_t P s N = (Except.ok outs, expected_trace [] outs) ∧
      (try_build_with_t P s N).2.length = N ∧
      ∀ i, i < N →
        ∃ v, outs.get? i = some v ∧
          (try_build_with_t P s N).2.get? i =
            some ⟨outs.take i, Except.ok v⟩ ∧
          (outs.take i).length = i := by
  by_cases hN : N = 0
  · subst hN
    refine ⟨[], rfl, ?_, ?_, ?_, ?_⟩
    · unfold try_build_with
      rw [move_start_eq, if_pos rfl]
    · unfold try_build_with_t
      rw [move_start_eq, if_pos rfl]
      rfl
    · unfold try_build_with_t
      rw [move_start_eq, if_pos rfl]
      rfl
    · intro i hi
      omega
  · have ht : try_build_with_t P s N =
        try_build_loop_t P s (⟨⟨⟨[]⟩⟩⟩ : move_builder.ArrayBuilder T N) := by
      unfold try_build_with_t
      rw [move_start_eq, if_neg hN]
    have hw : try_build_with P s N =
        try_build_loop P s (⟨⟨⟨[]⟩⟩⟩ : move_builder.ArrayBuilder T N) := by
      unfold try_build_with
      rw [move_start_eq, if_neg hN]
    obtain ⟨outs, hlen, hloop⟩ :=
      try_build_loop_t_ok P hm hnf N (⟨⟨⟨[]⟩⟩⟩ : move_builder.ArrayBuilder T N)
        s (by simp [move_len_mk]) (by omega)
    have hfst := try_build_loop_t_fst P N
      (⟨⟨⟨[]⟩⟩⟩ : move_builder.ArrayBuilder T N) s (by simp [move_len_mk])
    simp only [List.nil_append] at hloop
    refine ⟨outs, hlen, ?_, ?_, ?_, ?_⟩
    · rw [hw, ← hfst, hloop]
    · rw [ht, hloop]
    · rw [ht, hloop]
      simpa [expected_trace_length] using hlen
    · intro i hi
      obtain ⟨v, hv, htr⟩ := expected_trace_get? (E := E) outs [] i (by omega)
      refine ⟨v, hv, ?_, ?_⟩
      · rw [ht, hloop]
        simpa using htr
      · rw [List.length_take]
        omega

/-- C3 counterexample: a producer may write through the slice, and then the
slice passed to a later call differs from the values returned by the earlier
calls.  `mut_producer` zeroes the slice and returns `10, 20, 30`: its third
call (index 2) receives `[0, 20]`, not `[10, 20]`. -/
theorem c3_counterexample :
    (try_build_with_t mut_producer 0 3).2.get? 2 =
      some ⟨[0, 20], Except.ok 30⟩ ∧
    outs_of (try_build_with_t mut_producer 0 3).2 = [10, 20, 30] ∧
    ([0, 20] : List Nat) ≠ ([10, 20] : List Nat) := by
  refine ⟨?_, ?_, by decide⟩ <;>
    simp [try_build_with_t, try_build_loop_t, mut_producer, outs_of,
      Except.toOption,
      move_builder.ArrayBuilder.start, builder.ArrayBuilder.new,
      builder.ArrayVec.new, builder.ArrayBuilder.try_finish,
      builder.ArrayVec.into_inner, builder.ArrayBuilder.len,
      builder.ArrayVec.len, move_builder.ArrayBuilder.push,
      move_builder.ArrayBuilder.write_slice, builder.ArrayBuilder.push_unchecked,
      builder.ArrayBuilder.push_result, builder.ArrayVec.push_unchecked,
      builder.ArrayBuilder.finish_unchecked, builder.ArrayVec.into_inner_unchecked,
      move_builder.ArrayBuilder.finished_slice,
      builder.ArrayBuilder.finished_slice, builder.ArrayVec.as_slice]

/-- Witness for C3's amended theorem: the non-mutating, never-failing
counter producer over `N = 3`. -/
theorem c3_witness :
    NonMutating count_producer ∧ NeverFails count_producer ∧
    ∃ outs : List Nat, outs.length = 3 ∧
      try_build_with count_producer 0 3 = Except.ok outs := by
  refine ⟨fun s l => rfl, fun s l => ⟨s, rfl⟩, ?_⟩
  obtain ⟨outs, h1, h2, -⟩ :=
    c3_prefix_fidelity_amended count_producer 0 3
      (fun s l => rfl) (fun s l => ⟨s, rfl⟩)
  exact ⟨outs, h1, h2⟩

/-- Characterization of the loop driven by an iterator: if the iterator can
still yield the missing `fuel` items the build completes with them appended;
otherwise it fails with `()` at the index reached when the iterator ran
dry. -/
theorem iter_loop_spec {T σ : Type} {N : Nat} (it : Iter T σ) :
    ∀ (fuel : Nat) (l : List T) (s : σ),
      l.length + fuel = N → 0 < fuel →
      try_build_loop (of_thunk (iter_next it)) s
          (⟨⟨⟨l⟩⟩⟩ : move_builder.ArrayBuilder T N) =
        (if (it.take s fuel).length = fuel
         then Except.ok (l ++ it.take s fuel)
         else Except.error ⟨(), l.length + (it.take s fuel).length⟩) := by
  intro fuel
  induction fuel with
  | zero => intro l s h1 h2; omega
  | succ fuel ih =>
    intro l s hlen hpos
    rw [try_build_loop]
    cases hn : it.next s with
    | none =>
      have hcall : (of_thunk (iter_next it)).f s
          ((⟨⟨⟨l⟩⟩⟩ : move_builder.ArrayBuilder T N).finished_slice) =
          (s, l, Except.error ()) := by
        simp [of_thunk, iter_next, hn, move_fs_mk]
      rw [hcall]
      dsimp only []
      have htake : it.take s (fuel + 1) = [] := by simp [Iter.take, hn]
      rw [htake]
      simp

    | some pair =>
      obtain ⟨v, s2⟩ := pair
      have hcall : (of_thunk (iter_next it)).f s
          ((⟨⟨⟨l⟩⟩⟩ : move_builder.ArrayBuilder T N).finished_slice) =
          (s2, l, Except.ok v) := by
        simp [of_thunk, iter_next, hn, move_fs_mk]
      rw [hcall]
      dsimp only []
      have htake : it.take s (fuel + 1) = v :: it.take s2 fuel := by
        simp [Iter.take, hn]
      rw [htake]
      by_cases hfull : N ≤ l.length + 1
      · have hfuel0 : fuel = 0 := by omega
        subst hfuel0
        cases hp : ((⟨⟨⟨l⟩⟩⟩ : move_builder.ArrayBuilder T N).write_slice l).push v with
        | Full arr =>
          rw [write_slice_eq, move_push_eq] at hp
          dsimp only [] at hp
          rw [if_pos hfull] at hp
          cases hp
          simp [Iter.take]
        | NotFull b2 =>
          exfalso
          rw [write_slice_eq, move_push_eq] at hp
          dsimp only [] at hp
          rw [if_pos hfull] at hp
          exact absurd hp (by simp)
      · cases hp : ((⟨⟨⟨l⟩⟩⟩ : move_builder.ArrayBuilder T N).write_slice l).push v with
        | Full arr =>
          exfalso
          rw [write_slice_eq, move_push_eq] at hp
          dsimp only [] at hp
          rw [if_neg hfull] at hp
          exact absurd hp (by simp)
        | NotFull b2 =>
          have hb2 : b2 = ⟨⟨⟨l ++ [v]⟩⟩⟩ := by
            rw [write_slice_eq, move_push_eq] at hp
            dsimp only [] at hp
            rw [if_neg hfull] at hp
            cases hp
            rfl
          subst hb2
          dsimp only []
          rw [ih (l ++ [v]) s2 (by simp; omega) (by omega)]
          by_cases hc : (it.take s2 fuel).length = fuel
          · rw [if_pos hc, if_pos (by simp [hc])]
            simp
          · rw [if_neg hc, if_neg (by simp [hc])]
            simp
            omega

/-- `try_build` on an iterator's `next` collects the first `N` items when
they exist and otherwise fails at the index where the iterator dried up. -/
theorem try_build_iter_core {T σ : Type} (it : Iter T σ) (s : σ) (N : Nat) :
    try_build (iter_next it) s N =
      (if (it.take s N).length = N
       then Except.ok (it.take s N)
       else Except.error ⟨(), (it.take s N).length⟩) := by
  unfold try_build try_build_with
  rw [move_start_eq]
  by_cases hN : N = 0
  · subst hN
    rw [if_pos rfl]
    simp [Iter.take]
  · rw [if_neg hN]
    dsimp only []
    rw [iter_loop_spec it N [] s (by simp) (by omega)]
    simp

/-- C8: `try_build_iter` returns the first `N` items when the iterator (with
an honest size hint, per the `Iterator::size_hint` contract) yields at least
`N` of them; it returns `none` straight away — without consuming anything —
when the hint's upper bound rules out `N` items; it returns `none` when the
iterator is exhausted early; and `build_iter` is the same function with the
panic modelled as `none`. -/
theorem c8_build_iter {T σ : Type} (it : Iter T σ) (s : σ) (N : Nat) :
    (∀ m, (it.size_hint s).2 = some m → m < N → try_build_iter it s N = none) ∧
    (HintHonest it s → (it.take s N).length = N →
      try_build_iter it s N = some (it.take s N)) ∧
    ((it.take s N).length < N → try_build_iter it s N = none) ∧
    build_iter it s N = try_build_iter it s N := by
  refine ⟨?_, ?_, ?_, rfl⟩
  · intro m hm hlt
    unfold try_build_iter
    rw [hm]
    dsimp only []
    rw [if_pos hlt]
  · intro hh hfull
    unfold try_build_iter
    cases hhint : (it.size_hint s).2 with
    | some m =>
      have hbound : (it.take s N).length ≤ m := hh m hhint N
      dsimp only []
      rw [if_neg (by omega), try_build_iter_core, if_pos hfull]
      rfl
    | none =>
      dsimp only []
      rw [try_build_iter_core, if_pos hfull]
      rfl
  · intro hshort
    unfold try_build_iter
    cases hhint : (it.size_hint s).2 with
    | some m =>
      dsimp only []
      by_cases hlt : m < N
      · rw [if_pos hlt]
      · rw [if_neg hlt, try_build_iter_core, if_neg (by omega)]
        rfl
    | none =>
      dsimp only []
      rw [try_build_iter_core, if_neg (by omega)]
      rfl

/-- Witness for C8: the three behaviours at concrete iterators. -/
theorem c8_witness :
    try_build_iter short_hint_iter 0 10 = none ∧
    try_build_iter nat_iter 0 3 = some (nat_iter.take 0 3) ∧
    try_build_iter three_iter 0 10 = none := by
  refine ⟨?_, ?_, ?_⟩
  · exact (c8_build_iter short_hint_iter 0 10).1 2 rfl (by decide)
  · exact (c8_build_iter nat_iter 0 3).2.1
      (fun m hm => by simp [nat_iter] at hm) (by decide)
  · exact (c8_build_iter three_iter 0 10).2.2.1 (by decide)

end Brownstone
